/-
  Verification development for the micropython_remote repository
  (433 MHz remote-control capture / replay).

  The Python source (rx/__init__.py, tx/__init__.py) is shallowly embedded:
  pure computations become Lean functions over ℕ / ℤ / ℚ / ℝ, dict state
  becomes association lists, the timer-callback machinery becomes an explicit
  state-transition function, and float arithmetic (Python `round`, `sqrt`)
  is modelled exactly over ℚ / ℝ (the magnitudes involved — microsecond
  durations — are far below the range where double rounding could change
  any `round` result, and `round` ties to even as in Python 3).
-/
import Mathlib

namespace MPRemote

/-- Python 3 `round` on an exact rational: nearest integer, ties to even.
    (Mathlib's `round` rounds half away from zero / half up, so the tie
    case is handled separately.) -/
def pyRound (q : ℚ) : ℤ :=
  let f := ⌊q⌋
  if q - f = 1/2 then (if f % 2 = 0 then f else f + 1) else round q

/-- Integer-arithmetic evaluator for `pyRound (a / b)` on natural casts
    (used to compute with the ℚ-valued definitions; see `pyRound_nat_div`). -/
def pyRoundNat (a b : ℕ) : ℕ :=
  if 2 * (a % b) = b then (if (a / b) % 2 = 0 then a / b else a / b + 1)
  else (2 * a + b) / (2 * b)

/-- Python `max` over a list of naturals (the capture code only calls it on
    nonempty lists; `0` is a junk value for the empty list). -/
def maxList (l : List ℕ) : ℕ := l.foldr max 0

/-- Source: `gap = round(max(diffs) * 0.8)` from `RX.process`. -/
def gapThreshold (diffs : List ℕ) : ℤ :=
  pyRound ((maxList diffs : ℚ) * 0.8)

/-- One iteration of the frame-building loop in `RX.process`:
    pop elements `< gap` into the frame, then pop the terminating gap
    element and append it.  `none` models the `IndexError` taken when the
    list is exhausted before a gap is found (the partial frame is dropped). -/
def frameSplit (gap : ℤ) : List ℕ → Option (List ℕ × List ℕ)
  | [] => none
  | d :: t =>
    if (d : ℤ) < gap then (frameSplit gap t).map (fun p => (d :: p.1, p.2))
    else some ([d], t)

/-- Frame extraction loop of `RX.process` (fuel-indexed; each frame consumes
    at least one element, so `l.length` fuel always suffices). -/
def mkFramesAux (gap : ℤ) : ℕ → List ℕ → List (List ℕ)
  | 0, _ => []
  | fuel + 1, l =>
    match frameSplit gap l with
    | none => []
    | some (f, r) => f :: mkFramesAux gap fuel r

/-- The list of complete frames extracted from a gap list. -/
def mkFrames (gap : ℤ) (l : List ℕ) : List (List ℕ) :=
  mkFramesAux gap l.length l

/-- Source: `while diffs[0] < gap: diffs.pop(0)` followed by `diffs.pop(0)`:
    drop the leading run of gaps below the threshold and the first
    boundary gap itself. -/
def dropLeading (gap : ℤ) (diffs : List ℕ) : List ℕ :=
  (diffs.dropWhile (fun (d : ℕ) => decide ((d : ℤ) < gap))).tail

/-- The complete segmentation stage of `RX.process`: threshold, leading
    discard, frame extraction. -/
def segFrames (diffs : List ℕ) : List (List ℕ) :=
  mkFrames (gapThreshold diffs) (dropLeading (gapThreshold diffs) diffs)

/-- Source: `count = max(d.values())` where `d` counts occurrences of each distinct
    frame length: the modal multiplicity. -/
def maxCount (lengths : List ℕ) : ℕ :=
  (lengths.dedup.map (fun x => lengths.count x)).foldr max 0

/-- Source: `for length in d.keys(): if d[length] == count: break` — the first
    length in the dict's iteration order achieving the modal multiplicity.
    `order` models the iteration order of `set(lengths)`, which is
    hash-based and implementation-defined in (Micro)Python, so it is kept
    as a parameter ranging over enumerations of the distinct lengths. -/
def chooseLength (order : List ℕ) (lengths : List ℕ) : ℕ :=
  (order.find? (fun k => lengths.count k == maxCount lengths)).getD 0

/-- Source: `zip(*res)` truncates to the shortest row; its length. -/
def minLen (res : List (List ℕ)) : ℕ :=
  match res with
  | [] => 0
  | r :: rs => rs.foldl (fun a x => min a x.length) r.length

/-- The columns produced by `zip(*res)`. -/
def columns (res : List (List ℕ)) : List (List ℕ) :=
  (List.range (minLen res)).map (fun i => res.map (fun r => r.getD i 0))

/-- Source: `m = [round(sum(x)/cnt) for x in zip(*res)]` with `cnt = len(res)`.
    The final `[round(x) for x in m]` applies `round` to integers, which is
    the identity in Python 3, so the returned value is `m` itself. -/
def averageFrames (res : List (List ℕ)) : List ℤ :=
  (columns res).map (fun col => pyRound ((col.sum : ℚ) / (res.length : ℚ)))

/-- The validity filter and averaging of `RX.process`, applied to the
    extracted frame list: fail on fewer than 5 frames, pick the modal
    length, keep only frames of that length, fail on fewer than 5
    survivors, else average. -/
def processFrames (order : List ℕ) (res : List (List ℕ)) : Option (List ℤ) :=
  let lengths := res.map List.length
  if lengths.length < 5 then none
  else
    let length := chooseLength order lengths
    let res2 := res.filter (fun r => r.length == length)
    if res2.length < 5 then none
    else some (averageFrames res2)

/-- Source: `RX.process`: segmentation, validity filter, averaging.  Returns `none`
    on the two `too few valid frames` failures.  `order` is the iteration
    order of the set of distinct frame lengths (see `chooseLength`). -/
def process (order : List ℕ) (diffs : List ℕ) : Option (List ℤ) :=
  processFrames order (segFrames diffs)

/-- Integer-arithmetic clone of `averageFrames` (see `averageFrames_eq_nat`). -/
def averageFramesNat (res : List (List ℕ)) : List ℤ :=
  (columns res).map (fun col => (pyRoundNat col.sum res.length : ℤ))

/-- Integer-arithmetic clone of `process` (see `process_eq_nat`); used to
    evaluate the ℚ-valued `process` on concrete inputs. -/
def processNat (order : List ℕ) (diffs : List ℕ) : Option (List ℤ) :=
  let gap : ℤ := (pyRoundNat (4 * maxList diffs) 5 : ℕ)
  let res := mkFrames gap (dropLeading gap diffs)
  let lengths := res.map List.length
  if lengths.length < 5 then none
  else
    let length := chooseLength order lengths
    let res2 := res.filter (fun r => r.length == length)
    if res2.length < 5 then none
    else some (averageFramesNat res2)

/-- Modelled from the spec: the C5 tie-break as the spec states it — the
    first-encountered length (in frame order) whose multiplicity is modal.
    The source iterates over a hash-based `set(lengths)` instead, so this
    is compared against `chooseLength`. -/
def specFirstModal (lengths : List ℕ) : ℕ :=
  (lengths.find? (fun x => lengths.count x == maxCount lengths)).getD 0

/-! Section: code store (the `_data` dicts of `RX` and `TX`)

    Python dicts with string keys are modelled as association lists with
    `Nodup` keys where needed. -/

/-- Source: `self._data[key]` lookup returning `none` when absent (`RX.__getitem__`
    prints a message and returns `None`; `TX.__getitem__` raises `KeyError`:
    both are modelled by `none`). -/
def storeGet {α : Type} (st : List (String × α)) (k : String) : Option α :=
  (st.find? (fun kv => kv.1 == k)).map Prod.snd

/-- Source: `self._data[key] = v`: replace the value of an existing key in place,
    or append a fresh key. -/
def storeSet {α : Type} : List (String × α) → String → α → List (String × α)
  | [], k, v => [(k, v)]
  | kv :: t, k, v => if kv.1 = k then (k, v) :: t else kv :: storeSet t k v

/-- Source: `del self._data[key]` (`RX.__delitem__`): remove the entry. -/
def storeDel {α : Type} (st : List (String × α)) (k : String) : List (String × α) :=
  st.eraseP (fun kv => kv.1 == k)

/-- Source: `RX.__call__` after edge capture: run `process`; on failure leave the
    store untouched, on success store the averaged code under `key`. -/
def rxCall (store : List (String × List ℤ)) (order : List ℕ) (key : String)
    (diffs : List ℕ) : List (String × List ℤ) :=
  match process order diffs with
  | none => store
  | some res => storeSet store key res

/-! Section: JSON persistence (`RX.save` / `RX.load`)

    `ujson.dump` / `ujson.load` are modelled by a JSON value tree: `save`
    serialises the store as an object of arrays of integer numbers, `load`
    parses such an object and merges it into the store with `dict.update`. -/

/-- JSON values, as produced/consumed by `ujson` for the code file. -/
inductive JVal : Type where
  | jnum (n : ℤ)
  | jstr (s : String)
  | jarr (xs : List JVal)
  | jobj (kvs : List (String × JVal))

/-- Source: `ujson.dump(self._data, f)`: the JSON text written by `RX.save`. -/
def encodeStore (st : List (String × List ℤ)) : JVal :=
  JVal.jobj (st.map (fun kv => (kv.1, JVal.jarr (kv.2.map JVal.jnum))))

/-- Parse one stored code (a JSON array of integers). -/
def decodeCode : JVal → Option (List ℤ)
  | JVal.jarr xs => xs.mapM (fun v => match v with
      | JVal.jnum n => some n
      | _ => none)
  | _ => none

/-- Parse the whole code file (a JSON object of integer arrays). -/
def decodeStore : JVal → Option (List (String × List ℤ))
  | JVal.jobj kvs => kvs.mapM (fun kv => (decodeCode kv.2).map (fun c => (kv.1, c)))
  | _ => none

/-- Source: `self._data.update(d)`: set every key of `d` in turn. -/
def updateAll (st : List (String × List ℤ)) (d : List (String × List ℤ)) :
    List (String × List ℤ) :=
  d.foldl (fun acc kv => storeSet acc kv.1 kv.2) st

/-- Source: `RX.load`: parse the file and merge it into the store (a file whose
    shape is not a key→integer-array object is rejected unchanged). -/
def rxLoad (st : List (String × List ℤ)) (file : JVal) : List (String × List ℤ) :=
  match decodeStore file with
  | some d => updateAll st d
  | none => st

/-! Section: Playback engine (`TX`, Pyboard callback-chain strategy) -/

/-- The sentinel terminating the playback buffer (`STOP = const(0)`). -/
def STOP : ℕ := 0

/-- Source: `int(self._active_high)` as used in the xor formulas. -/
def activeInt (ah : Bool) : ℕ := if ah then 1 else 0

/-- Source: `self._active_high ^ 1`: the idle / inactive pin level. -/
def idleLevel (ah : Bool) : ℕ := (activeInt ah) ^^^ 1

/-- The mutable state read and written by the timer callback `TX._cb`:
    playback buffer, array pointer, output pin level, polarity, and the
    one-shot timer (`some v` = armed for `v` µs, `none` = disarmed). -/
structure TXTimerState : Type where
  arr : List ℕ
  aptr : ℕ
  pin : ℕ
  activeHigh : Bool
  timer : Option ℕ
deriving DecidableEq

/-- Source: `TX._cb`: `t.deinit()`; read `v = arr[aptr]`; if `v == STOP` drive the
    pin to idle and stop, else drive the pin to `aptr & 1 ^ active_high`,
    re-arm the timer for `v` µs and advance the pointer. -/
def txCb (s : TXTimerState) : TXTimerState :=
  let s0 : TXTimerState := { s with timer := none }
  let p := s0.aptr
  let v := s0.arr.getD p 0
  if v = STOP then { s0 with pin := idleLevel s0.activeHigh }
  else { s0 with pin := (p &&& 1) ^^^ activeInt s0.activeHigh,
                 timer := some v, aptr := p + 1 }

/-- The inner write loop of `TX.__call__` (Pyboard branch):
    `for t in ts: arr[x] = t; x += 1`. -/
def writeSeq : List ℕ → ℕ → List ℕ → List ℕ
  | arr, _, [] => arr
  | arr, x, t :: ts => writeSeq (arr.set x t) (x + 1) ts

/-- The buffer fill of `TX.__call__` (Pyboard branch): write the code
    `reps` times consecutively, then the sentinel. -/
def txFill (arr : List ℕ) (lst : List ℕ) (reps : ℕ) : List ℕ :=
  (writeSeq arr 0 (List.flatten (List.replicate reps lst))).set (reps * lst.length) STOP

/-- The buffer indices read by iterating `TX._cb` from a state (each firing
    reads `arr[aptr]`; the chain ends when the timer is left disarmed). -/
def runChain : ℕ → TXTimerState → List ℕ
  | 0, _ => []
  | fuel + 1, s =>
    s.aptr :: (match (txCb s).timer with
      | none => []
      | some _ => runChain fuel (txCb s))

/-- Source: `self._latency = (reps + 2) * max((sum(x) for x in self._data.values())) // 1000`. -/
def txLatency (codes : List (List ℕ)) (reps : ℕ) : ℕ :=
  (reps + 2) * maxList (codes.map (fun x => x.sum)) / 1000

/-- The `TX` instance state relevant to the modelled operations. -/
structure TXState : Type where
  data : List (String × List ℕ)
  reps : ℕ
  lat : ℕ
  arr : List ℕ
  aptr : ℕ
deriving DecidableEq

/-- Source: `TX.__init__` (Pyboard branch): load the code file, compute the latency
    once, pre-size the playback buffer. -/
def txInit (data : List (String × List ℕ)) (reps : ℕ) : TXState :=
  { data := data
    reps := reps
    lat := txLatency (data.map Prod.snd) reps
    arr := List.replicate (reps * maxList (data.map (fun kv => kv.2.length)) + 1) 0
    aptr := 0 }

/-- Source: `TX.latency()`. -/
def latency (s : TXState) : ℕ := s.lat

/-- Source: `TX.__call__` (nonblocking transmit, Pyboard branch): look the key up
    (`none` models the `KeyError` on an unknown key), fill the buffer and
    reset the pointer. -/
def txCall (s : TXState) (key : String) : Option TXState :=
  (storeGet s.data key).map
    (fun lst => { s with arr := txFill s.arr lst s.reps, aptr := 0 })

/-! Section: Blocking transmit (`TX.send`) -/

/-- Source: `for t in lst: pin(pin() ^ 1); sleep_us(t)` — the pin levels written by
    the toggle loop, threading the current pin level; returns the write
    trace and the final pin level. -/
def toggleRun (p : ℕ) : List ℕ → List ℕ × ℕ
  | [] => ([], p)
  | _ :: ts =>
    let v := p ^^^ 1
    let rest := toggleRun v ts
    (v :: rest.1, rest.2)

/-- The `for _ in range(reps)` loop of `TX.send`: each repetition writes the
    inactive level `q` and then toggles once per duration. -/
def sendReps (q : ℕ) (p : ℕ) : ℕ → List ℕ → List ℕ × ℕ
  | 0, _ => ([], p)
  | r + 1, lst =>
    let w := toggleRun q lst
    let rest := sendReps q w.2 r lst
    (q :: (w.1 ++ rest.1), rest.2)

/-- Source: `TX.send` for a present key: the full trace of pin writes, ending with
    the final `pin(q)`.  `p0` is the pin level on entry. -/
def sendWrites (ah : Bool) (p0 : ℕ) (reps : ℕ) (lst : List ℕ) : List ℕ :=
  (sendReps (idleLevel ah) p0 reps lst).1 ++ [idleLevel ah]

/-! Section: Capture quality metric (claim C2)

    `RX.process` computes, per column `i` of the retained frames,
    `s[i] = sqrt(sum((y - m[i])**2))` around the *rounded* mean `m[i]`, and
    reports `sum(s)/len(s)`. -/

/-- The per-position deviation values `s` of `RX.process`. -/
noncomputable def stdList (res : List (List ℕ)) : List ℝ :=
  ((columns res).zip (averageFrames res)).map
    (fun p => Real.sqrt ((p.1.map (fun (y : ℕ) => ((y:ℝ) - (p.2:ℝ)) ^ 2)).sum))

/-- The reported capture-quality score `sum(s)/len(s)`. -/
noncomputable def quality (res : List (List ℕ)) : ℝ :=
  (stdList res).sum / (stdList res).length

/-- Modelled from the spec: the mean over positions of the *population
    standard deviation* of each column (deviations taken about the exact
    column mean, normalised by the number of frames), which is what the
    spec says the quality score is. -/
noncomputable def specQuality (res : List (List ℕ)) : ℝ :=
  let s := (columns res).map (fun col =>
    Real.sqrt ((col.map (fun (y : ℕ) =>
      ((y:ℝ) - (col.sum : ℝ) / (col.length : ℝ)) ^ 2)).sum / (col.length : ℝ)))
  s.sum / s.length

/-! Section: Evaluation lemmas for `pyRound` -/

lemma floor_nat_div (a b : ℕ) : ⌊((a:ℚ))/((b:ℚ))⌋ = ((a / b : ℕ) : ℤ) := by
  rw [Rat.floor_natCast_div_natCast]
  exact_mod_cast rfl

lemma round_nat_div (a b : ℕ) (hb : 0 < b) :
    round ((a:ℚ)/(b:ℚ)) = (((2 * a + b) / (2 * b) : ℕ) : ℤ) := by
  rw [round_eq]
  have hb' : (b:ℚ) ≠ 0 := by positivity
  have h : (a:ℚ)/(b:ℚ) + 1/2 = ((2*a+b : ℕ) : ℚ) / ((2*b : ℕ) : ℚ) := by
    push_cast
    field_simp
    ring
  rw [h, floor_nat_div]

lemma fract_nat_div (a b : ℕ) (hb : 0 < b) :
    (a:ℚ)/(b:ℚ) - (⌊(a:ℚ)/(b:ℚ)⌋ : ℚ) = ((a % b : ℕ) : ℚ) / (b:ℚ) := by
  have hb' : (b:ℚ) ≠ 0 := by positivity
  have ha : (b:ℚ) * ((a / b : ℕ) : ℚ) + ((a % b : ℕ) : ℚ) = (a:ℚ) := by
    exact_mod_cast congrArg (Nat.cast : ℕ → ℚ) (Nat.div_add_mod a b)
  rw [floor_nat_div, Int.cast_natCast, eq_div_iff hb', sub_mul,
    div_mul_cancel₀ _ hb']
  linarith

lemma tie_iff (a b : ℕ) (hb : 0 < b) :
    (a:ℚ)/(b:ℚ) - (⌊(a:ℚ)/(b:ℚ)⌋ : ℚ) = 1/2 ↔ 2 * (a % b) = b := by
  rw [fract_nat_div a b hb]
  have hb' : (b:ℚ) ≠ 0 := by positivity
  rw [div_eq_iff hb']
  constructor
  · intro h
    have h2 : 2 * ((a % b : ℕ) : ℚ) = (b:ℚ) := by linarith
    exact_mod_cast h2
  · intro h
    have h2 : 2 * ((a % b : ℕ) : ℚ) = (b:ℚ) := by exact_mod_cast h
    linarith

lemma pyRound_nat_div (a b : ℕ) (hb : 0 < b) :
    pyRound ((a:ℚ)/(b:ℚ)) = (pyRoundNat a b : ℤ) := by
  unfold pyRound pyRoundNat
  by_cases h : 2 * (a % b) = b
  · rw [if_pos ((tie_iff a b hb).mpr h), if_pos h, floor_nat_div]
    by_cases hev : (a / b) % 2 = 0
    · have h2 : ((a / b : ℕ) : ℤ) % 2 = 0 := by exact_mod_cast hev
      rw [if_pos h2, if_pos hev]
    · have h2 : ¬ ((a / b : ℕ) : ℤ) % 2 = 0 := by
        intro hc
        exact hev (by exact_mod_cast hc)
      rw [if_neg h2, if_neg hev]
      push_cast
      ring
  · rw [if_neg (fun hc => h ((tie_iff a b hb).mp hc)), if_neg h, round_nat_div a b hb]

/-- Source: `pyRound` is the identity on integers. -/
lemma pyRound_intCast (n : ℤ) : pyRound ((n:ℚ)) = n := by
  unfold pyRound
  rw [Int.floor_intCast]
  have h : ¬ ((n:ℚ) - ((n:ℤ):ℚ) = 1/2) := by
    norm_num
  rw [if_neg h, round_intCast]

lemma pyRound_natCast (n : ℕ) : pyRound ((n:ℚ)) = (n : ℤ) := by
  exact_mod_cast pyRound_intCast (n : ℤ)

/-- The capture threshold, evaluated in integer arithmetic. -/
lemma gapThreshold_eq (diffs : List ℕ) :
    gapThreshold diffs = (pyRoundNat (4 * maxList diffs) 5 : ℤ) := by
  unfold gapThreshold
  have h : ((maxList diffs : ℕ) : ℚ) * 0.8 = ((4 * maxList diffs : ℕ) : ℚ) / ((5:ℕ):ℚ) := by
    push_cast
    ring_nf
  rw [h, pyRound_nat_div _ _ (by norm_num)]

lemma averageFrames_eq_nat (res : List (List ℕ)) (h : res ≠ []) :
    averageFrames res = averageFramesNat res := by
  unfold averageFrames averageFramesNat
  refine List.map_congr_left (fun col _ => ?_)
  have hlen : 0 < res.length := List.length_pos.mpr h
  exact pyRound_nat_div col.sum res.length hlen

lemma process_eq_nat (order : List ℕ) (diffs : List ℕ) :
    process order diffs = processNat order diffs := by
  simp only [process, processFrames, processNat, segFrames, gapThreshold_eq]
  split
  · rfl
  · split
    · rfl
    · next h5 h5' =>
      rw [averageFrames_eq_nat]
      intro hnil
      rw [hnil] at h5'
      exact h5' (by norm_num)

/-! Section: Structure of the frame-extraction loop (claim C1) -/

lemma frameSplit_none_iff (gap : ℤ) (l : List ℕ) :
    frameSplit gap l = none ↔ ∀ x ∈ l, (x:ℤ) < gap := by
  induction l with
  | nil => simp [frameSplit]
  | cons d t ih =>
    by_cases hd : (d:ℤ) < gap
    · simp only [frameSplit, if_pos hd, List.mem_cons]
      cases hfs : frameSplit gap t with
      | none =>
        simp only [Option.map_none']
        constructor
        · intro _ x hx
          rcases hx with rfl | hx
          · exact hd
          · exact (ih.mp hfs) x hx
        · intro _
          trivial
      | some p =>
        simp only [Option.map_some']
        constructor
        · intro hc
          exact absurd hc (Option.some_ne_none _)
        · intro hall
          have hn : frameSplit gap t = none := ih.mpr (fun x hx => hall x (Or.inr hx))
          rw [hn] at hfs
          exact Option.noConfusion hfs
    · simp only [frameSplit, if_neg hd]
      constructor
      · intro hc
        exact absurd hc (Option.some_ne_none _)
      · intro hall
        exact absurd (hall d (List.mem_cons_self d t)) hd

lemma frameSplit_some (gap : ℤ) (l f r : _) (h : frameSplit gap l = some (f, r)) :
    ∃ (xs : List ℕ) (g : ℕ), l = xs ++ g :: r ∧ f = xs ++ [g] ∧
      (∀ x ∈ xs, (x:ℤ) < gap) ∧ gap ≤ (g:ℤ) := by
  induction l generalizing f with
  | nil => simp [frameSplit] at h
  | cons d t ih =>
    by_cases hd : (d:ℤ) < gap
    · simp only [frameSplit, if_pos hd] at h
      cases hfs : frameSplit gap t with
      | none =>
        rw [hfs] at h
        simp at h
      | some p =>
        rw [hfs] at h
        simp only [Option.map_some', Option.some.injEq, Prod.mk.injEq] at h
        obtain ⟨hf, hr⟩ := h
        obtain ⟨xs, g, ht, hfp, hxs, hg⟩ := ih (f := p.1) (by rw [hfs, ← hr])
        refine ⟨d :: xs, g, ?_, ?_, ?_, hg⟩
        · rw [ht]
          rfl
        · rw [← hf, hfp]
          rfl
        · intro x hx
          rcases List.mem_cons.mp hx with rfl | hx
          · exact hd
          · exact hxs x hx
    · simp only [frameSplit, if_neg hd, Option.some.injEq, Prod.mk.injEq] at h
      obtain ⟨hf, hr⟩ := h
      exact ⟨[], d, by simp [hr], hf.symm, by simp, not_lt.mp hd⟩

lemma frameSplit_shrink (gap : ℤ) (l f r : _) (h : frameSplit gap l = some (f, r)) :
    r.length < l.length := by
  obtain ⟨xs, g, hl, -, -, -⟩ := frameSplit_some gap l f r h
  rw [hl]
  simp
  omega

lemma mkFramesAux_nil (gap : ℤ) (fuel : ℕ) : mkFramesAux gap fuel [] = [] := by
  cases fuel with
  | zero => rfl
  | succ n => simp [mkFramesAux, frameSplit]

lemma mkFramesAux_fuel (gap : ℤ) :
    ∀ fuel fuel' l, l.length ≤ fuel → l.length ≤ fuel' →
      mkFramesAux gap fuel l = mkFramesAux gap fuel' l := by
  intro fuel
  induction fuel with
  | zero =>
    intro fuel' l hl _
    have hnil : l = [] := List.length_eq_zero.mp (Nat.le_zero.mp hl)
    rw [hnil, mkFramesAux_nil, mkFramesAux_nil]
  | succ n ih =>
    intro fuel' l hl hl'
    cases fuel' with
    | zero =>
      have hnil : l = [] := List.length_eq_zero.mp (Nat.le_zero.mp hl')
      rw [hnil, mkFramesAux_nil, mkFramesAux_nil]
    | succ n' =>
      show (match frameSplit gap l with
        | none => []
        | some (f, r) => f :: mkFramesAux gap n r) =
        (match frameSplit gap l with
        | none => []
        | some (f, r) => f :: mkFramesAux gap n' r)
      cases hfs : frameSplit gap l with
      | none => rfl
      | some p =>
        obtain ⟨f, r⟩ := p
        have hlt := frameSplit_shrink gap l f r hfs
        show f :: mkFramesAux gap n r = f :: mkFramesAux gap n' r
        rw [ih n' r (by omega) (by omega)]

/-- Unfolding equation for `mkFrames`: peel one frame off at a time. -/
lemma mkFrames_eq (gap : ℤ) (l : List ℕ) :
    mkFrames gap l = match frameSplit gap l with
      | none => []
      | some (f, r) => f :: mkFrames gap r := by
  unfold mkFrames
  cases l with
  | nil => simp [mkFramesAux_nil, frameSplit]
  | cons d t =>
    show (match frameSplit gap (d :: t) with
      | none => []
      | some (f, r) => f :: mkFramesAux gap t.length r) = _
    cases hfs : frameSplit gap (d :: t) with
    | none => rfl
    | some p =>
      obtain ⟨f, r⟩ := p
      have hlt := frameSplit_shrink gap (d :: t) f r hfs
      simp only [List.length_cons] at hlt
      show f :: mkFramesAux gap t.length r = f :: mkFramesAux gap r.length r
      rw [mkFramesAux_fuel gap t.length r.length r (by omega) le_rfl]

/-- Every extracted frame is a run of sub-threshold gaps closed by one
    boundary gap `≥ threshold` as its final element. -/
lemma mkFrames_shape (gap : ℤ) (l : List ℕ) :
    ∀ fr ∈ mkFrames gap l, ∃ (xs : List ℕ) (g : ℕ), fr = xs ++ [g] ∧
      (∀ x ∈ xs, (x:ℤ) < gap) ∧ gap ≤ (g:ℤ) := by
  have H : ∀ n (l : List ℕ), l.length ≤ n → ∀ fr ∈ mkFrames gap l,
      ∃ (xs : List ℕ) (g : ℕ), fr = xs ++ [g] ∧ (∀ x ∈ xs, (x:ℤ) < gap) ∧ gap ≤ (g:ℤ) := by
    intro n
    induction n with
    | zero =>
      intro l hl fr hfr
      have hnil : l = [] := List.length_eq_zero.mp (Nat.le_zero.mp hl)
      rw [hnil, mkFrames] at hfr
      rw [mkFramesAux_nil] at hfr
      exact absurd hfr (List.not_mem_nil fr)
    | succ n ih =>
      intro l hl fr hfr
      rw [mkFrames_eq] at hfr
      cases hfs : frameSplit gap l with
      | none =>
        rw [hfs] at hfr
        exact absurd hfr (List.not_mem_nil fr)
      | some p =>
        obtain ⟨f, r⟩ := p
        rw [hfs] at hfr
        obtain ⟨xs, g, -, hfp, hxs, hg⟩ := frameSplit_some gap l f r hfs
        have hlt := frameSplit_shrink gap l f r hfs
        rcases List.mem_cons.mp hfr with rfl | hfr
        · exact ⟨xs, g, hfp, hxs, hg⟩
        · exact ih r (by omega) fr hfr
  exact H l.length l le_rfl

/-- The extracted frames are a partition of a prefix of the gap list; the
    unconsumed remainder is a trailing partial frame, all below threshold. -/
lemma mkFrames_partition (gap : ℤ) (l : List ℕ) :
    ∃ rest, l = (mkFrames gap l).flatten ++ rest ∧ ∀ x ∈ rest, (x:ℤ) < gap := by
  have H : ∀ n (l : List ℕ), l.length ≤ n →
      ∃ rest, l = (mkFrames gap l).flatten ++ rest ∧ ∀ x ∈ rest, (x:ℤ) < gap := by
    intro n
    induction n with
    | zero =>
      intro l hl
      have hnil : l = [] := List.length_eq_zero.mp (Nat.le_zero.mp hl)
      refine ⟨[], ?_, by simp⟩
      rw [hnil, mkFrames, mkFramesAux_nil]
      rfl
    | succ n ih =>
      intro l hl
      rw [mkFrames_eq]
      cases hfs : frameSplit gap l with
      | none =>
        exact ⟨l, by simp, (frameSplit_none_iff gap l).mp hfs⟩
      | some p =>
        obtain ⟨f, r⟩ := p
        obtain ⟨xs, g, hdecomp, hfp, -, -⟩ := frameSplit_some gap l f r hfs
        have hlt := frameSplit_shrink gap l f r hfs
        obtain ⟨rest, hr, hrest⟩ := ih r (by omega)
        refine ⟨rest, ?_, hrest⟩
        rw [hdecomp, List.flatten_cons, hfp]
        rw [List.append_assoc, ← hr]
        simp
  exact H l.length l le_rfl


/-! Section: `maxList` and the threshold bound -/

lemma maxList_cons (d : ℕ) (t : List ℕ) : maxList (d :: t) = max d (maxList t) := rfl

lemma le_maxList (l : List ℕ) : ∀ x ∈ l, x ≤ maxList l := by
  induction l with
  | nil => simp
  | cons d t ih =>
    intro x hx
    rw [maxList_cons]
    rcases List.mem_cons.mp hx with rfl | hx
    · exact le_max_left _ _
    · exact le_trans (ih x hx) (le_max_right _ _)

lemma maxList_mem (l : List ℕ) (h : l ≠ []) : maxList l ∈ l := by
  induction l with
  | nil => exact absurd rfl h
  | cons d t ih =>
    rw [maxList_cons]
    cases t with
    | nil => simp [maxList]
    | cons e u =>
      rcases le_total (maxList (e :: u)) d with hle | hle
      · rw [max_eq_left hle]
        exact List.mem_cons_self _ _
      · rw [max_eq_right hle]
        exact List.mem_cons_of_mem d (ih (by simp))

lemma pyRoundNat_four_fifths_le (m : ℕ) : pyRoundNat (4 * m) 5 ≤ m := by
  unfold pyRoundNat
  rw [if_neg (by omega)]
  omega

/-- The threshold never exceeds the largest gap (needed for the leading
    discard loop to terminate without an `IndexError`). -/
lemma gapThreshold_le_max (diffs : List ℕ) :
    gapThreshold diffs ≤ (maxList diffs : ℤ) := by
  rw [gapThreshold_eq]
  exact_mod_cast pyRoundNat_four_fifths_le (maxList diffs)

/-- The leading-discard loop: the input splits as sub-threshold noise,
    one boundary gap, and the remainder on which framing starts. -/
lemma dropLeading_spec (gap : ℤ) (diffs : List ℕ) (h : ∃ x ∈ diffs, gap ≤ (x:ℤ)) :
    ∃ (pre : List ℕ) (g : ℕ), diffs = pre ++ g :: dropLeading gap diffs ∧
      (∀ x ∈ pre, (x:ℤ) < gap) ∧ gap ≤ (g:ℤ) := by
  induction diffs with
  | nil =>
    obtain ⟨x, hx, -⟩ := h
    exact absurd hx (List.not_mem_nil x)
  | cons d t ih =>
    by_cases hd : (d:ℤ) < gap
    · have ht : ∃ x ∈ t, gap ≤ (x:ℤ) := by
        obtain ⟨x, hx, hgx⟩ := h
        rcases List.mem_cons.mp hx with rfl | hx
        · exact absurd hgx (not_le.mpr hd)
        · exact ⟨x, hx, hgx⟩
      obtain ⟨pre, g, hdec, hpre, hg⟩ := ih ht
      have hdl : dropLeading gap (d :: t) = dropLeading gap t := by
        unfold dropLeading
        rw [List.dropWhile_cons]
        simp only [decide_eq_true_eq, hd, if_true]
      refine ⟨d :: pre, g, ?_, ?_, hg⟩
      · rw [hdl, List.cons_append]
        exact congrArg (d :: ·) hdec
      · intro x hx
        rcases List.mem_cons.mp hx with rfl | hx
        · exact hd
        · exact hpre x hx
    · have hdl : dropLeading gap (d :: t) = t := by
        unfold dropLeading
        rw [List.dropWhile_cons]
        simp only [decide_eq_true_eq, hd, if_false]
        rfl
      exact ⟨[], d, by simp [hdl], by simp, not_lt.mp hd⟩

/-- Claim C1 (confirmed).  For a nonempty gap sequence: the threshold is
    `round(0.8 · max(gaps))`; the leading gaps below the threshold are
    discarded together with the first boundary gap; every extracted frame
    consists of sub-threshold gaps closed by one gap `≥ threshold` as its
    final element; and the remainder not covered by the extracted frames is
    a trailing partial frame of sub-threshold gaps, which is discarded. -/
theorem frame_segmentation_correct (diffs : List ℕ) (h : diffs ≠ []) :
    gapThreshold diffs = pyRound ((maxList diffs : ℚ) * 0.8) ∧
    (∃ (pre : List ℕ) (g : ℕ),
      diffs = pre ++ g :: dropLeading (gapThreshold diffs) diffs ∧
      (∀ x ∈ pre, (x:ℤ) < gapThreshold diffs) ∧ gapThreshold diffs ≤ (g:ℤ)) ∧
    (∀ fr ∈ segFrames diffs, ∃ (xs : List ℕ) (g : ℕ), fr = xs ++ [g] ∧
      (∀ x ∈ xs, (x:ℤ) < gapThreshold diffs) ∧ gapThreshold diffs ≤ (g:ℤ)) ∧
    (∃ rest, dropLeading (gapThreshold diffs) diffs = (segFrames diffs).flatten ++ rest ∧
      ∀ x ∈ rest, (x:ℤ) < gapThreshold diffs) := by
  refine ⟨rfl, ?_, ?_, ?_⟩
  · exact dropLeading_spec (gapThreshold diffs) diffs
      ⟨maxList diffs, maxList_mem diffs h, gapThreshold_le_max diffs⟩
  · show ∀ fr ∈ mkFrames (gapThreshold diffs) (dropLeading (gapThreshold diffs) diffs), _
    exact mkFrames_shape (gapThreshold diffs) (dropLeading (gapThreshold diffs) diffs)
  · show ∃ rest, dropLeading (gapThreshold diffs) diffs
        = (mkFrames (gapThreshold diffs) (dropLeading (gapThreshold diffs) diffs)).flatten
          ++ rest ∧ _
    exact mkFrames_partition (gapThreshold diffs) (dropLeading (gapThreshold diffs) diffs)

/-- Witness for C1 at the concrete gap list `[100, 10, 100, 10, 100]`. -/
theorem frame_segmentation_correct_witness :
    ([100, 10, 100, 10, 100] : List ℕ) ≠ [] ∧
    (gapThreshold [100, 10, 100, 10, 100]
        = pyRound ((maxList [100, 10, 100, 10, 100] : ℚ) * 0.8) ∧
    (∃ (pre : List ℕ) (g : ℕ),
      [100, 10, 100, 10, 100]
        = pre ++ g :: dropLeading (gapThreshold [100, 10, 100, 10, 100]) [100, 10, 100, 10, 100] ∧
      (∀ x ∈ pre, (x:ℤ) < gapThreshold [100, 10, 100, 10, 100]) ∧
        gapThreshold [100, 10, 100, 10, 100] ≤ (g:ℤ)) ∧
    (∀ fr ∈ segFrames [100, 10, 100, 10, 100], ∃ (xs : List ℕ) (g : ℕ), fr = xs ++ [g] ∧
      (∀ x ∈ xs, (x:ℤ) < gapThreshold [100, 10, 100, 10, 100]) ∧
        gapThreshold [100, 10, 100, 10, 100] ≤ (g:ℤ)) ∧
    (∃ rest, dropLeading (gapThreshold [100, 10, 100, 10, 100]) [100, 10, 100, 10, 100]
        = (segFrames [100, 10, 100, 10, 100]).flatten ++ rest ∧
      ∀ x ∈ rest, (x:ℤ) < gapThreshold [100, 10, 100, 10, 100])) :=
  ⟨by decide, frame_segmentation_correct [100, 10, 100, 10, 100] (by decide)⟩


/-! Section: The modal-length filter (claims C4 and C5) -/

lemma count_le_maxCount (lengths : List ℕ) (x : ℕ) (hx : x ∈ lengths) :
    lengths.count x ≤ maxCount lengths := by
  unfold maxCount
  exact le_maxList _ (lengths.count x)
    (List.mem_map_of_mem _ (List.mem_dedup.mpr hx))

lemma maxCount_attained (lengths : List ℕ) (h : lengths ≠ []) :
    ∃ x ∈ lengths, lengths.count x = maxCount lengths := by
  have hd : lengths.dedup ≠ [] := fun hc => h ((List.dedup_eq_nil lengths).mp hc)
  have hm : lengths.dedup.map (fun x => lengths.count x) ≠ [] := by
    intro hc
    exact hd (List.map_eq_nil_iff.mp hc)
  have := maxList_mem _ hm
  rw [List.mem_map] at this
  obtain ⟨x, hx, hcx⟩ := this
  exact ⟨x, List.mem_dedup.mp hx, hcx⟩

/-- Whatever enumeration order the length set is iterated in, the length
    the loop breaks on achieves the modal multiplicity. -/
lemma chooseLength_count (order lengths : List ℕ) (h : lengths ≠ [])
    (hcov : ∀ x ∈ lengths, x ∈ order) :
    lengths.count (chooseLength order lengths) = maxCount lengths := by
  obtain ⟨x, hx, hcx⟩ := maxCount_attained lengths h
  have hfind : (order.find? (fun k => lengths.count k == maxCount lengths)).isSome := by
    rw [List.find?_isSome]
    exact ⟨x, hcov x hx, by simp [hcx]⟩
  obtain ⟨k, hk⟩ := Option.isSome_iff_exists.mp hfind
  have hpk := List.find?_some hk
  unfold chooseLength
  rw [hk, Option.getD_some]
  exact eq_of_beq hpk

lemma count_map_length (res : List (List ℕ)) (L : ℕ) :
    (res.map List.length).count L = (res.filter (fun r => r.length == L)).length := by
  rw [List.count_eq_countP, List.countP_map, List.countP_eq_length_filter]
  rfl

lemma length_filter_partition {α : Type} (p : α → Bool) (l : List α) :
    (l.filter p).length + (l.filter (fun x => !(p x))).length = l.length := by
  induction l with
  | nil => rfl
  | cons a t ih =>
    cases hpa : p a <;> simp [List.filter_cons, hpa] <;> omega


lemma storeGet_storeSet_self {α : Type} (st : List (String × α)) (k : String) (v : α) :
    storeGet (storeSet st k v) k = some v := by
  induction st with
  | nil => simp [storeGet, storeSet]
  | cons kv t ih =>
    by_cases hk : kv.1 = k
    · simp [storeGet, storeSet, hk]
    · simp only [storeSet, if_neg hk]
      simp only [storeGet, List.find?]
      rw [show (kv.1 == k) = false from beq_eq_false_iff_ne.mpr hk]
      exact ih

/-- Source: `processFrames` unfolded to its branch structure. -/
lemma processFrames_spec (order : List ℕ) (res : List (List ℕ)) :
    processFrames order res =
      if (res.map List.length).length < 5 then none
      else if (res.filter
          (fun r => r.length == chooseLength order (res.map List.length))).length < 5 then
        none
      else some (averageFrames (res.filter
        (fun r => r.length == chooseLength order (res.map List.length)))) := rfl

/-- If only 4 frames have the modal length, the filter stage fails. -/
lemma processFrames_modal_four (order : List ℕ) (res : List (List ℕ))
    (hcov : ∀ x ∈ res.map List.length, x ∈ order)
    (hM : maxCount (res.map List.length) = 4) :
    processFrames order res = none := by
  rw [processFrames_spec]
  by_cases hlen : (res.map List.length).length < 5
  · rw [if_pos hlen]
  · rw [if_neg hlen]
    have hne : res.map List.length ≠ [] := by
      intro hc
      rw [hc] at hlen
      exact hlen (by norm_num)
    have hcc := chooseLength_count order (res.map List.length) hne hcov
    rw [if_pos ?_]
    rw [← count_map_length, hcc, hM]
    norm_num

/-- If exactly 5 frames have the modal length, the filter stage succeeds
    and averages precisely those 5 frames. -/
lemma processFrames_modal_five (order : List ℕ) (res : List (List ℕ))
    (hcov : ∀ x ∈ res.map List.length, x ∈ order)
    (hM : maxCount (res.map List.length) = 5) :
    processFrames order res = some (averageFrames (res.filter
      (fun r => r.length == chooseLength order (res.map List.length)))) := by
  have hne : res.map List.length ≠ [] := by
    intro hc
    rw [hc] at hM
    simp [maxCount, maxList] at hM
  have hcc := chooseLength_count order (res.map List.length) hne hcov
  obtain ⟨x, hx, hcx⟩ := maxCount_attained (res.map List.length) hne
  have hxle := List.count_le_length x (res.map List.length)
  rw [hM] at hcx
  have hlen : ¬ (res.map List.length).length < 5 := by omega
  have hcnt : (res.filter
      (fun r => r.length == chooseLength order (res.map List.length))).length = 5 := by
    rw [← count_map_length, hcc, hM]
  rw [processFrames_spec, if_neg hlen, if_neg (by omega)]

/-- Claim C4 (confirmed).  A capture whose extracted frames contain exactly 4
    of the modal length fails and leaves the store untouched; one with
    exactly 5 of the modal length succeeds and stores the averaged code
    under the key; any failing capture performs no store mutation. -/
theorem capture_five_frame_boundary (store : List (String × List ℤ)) (order : List ℕ)
    (key : String) (diffs : List ℕ)
    (hcov : ∀ x ∈ (segFrames diffs).map List.length, x ∈ order) :
    (maxCount ((segFrames diffs).map List.length) = 4 →
      process order diffs = none ∧ rxCall store order key diffs = store) ∧
    (maxCount ((segFrames diffs).map List.length) = 5 →
      ∃ code, process order diffs = some code ∧
        rxCall store order key diffs = storeSet store key code ∧
        storeGet (rxCall store order key diffs) key = some code) ∧
    (process order diffs = none → rxCall store order key diffs = store) := by
  refine ⟨?_, ?_, ?_⟩
  · intro hM
    have hp : process order diffs = none :=
      processFrames_modal_four order (segFrames diffs) hcov hM
    exact ⟨hp, by simp [rxCall, hp]⟩
  · intro hM
    have hp := processFrames_modal_five order (segFrames diffs) hcov hM
    refine ⟨_, hp, ?_, ?_⟩
    · show rxCall store order key diffs = _
      unfold rxCall
      rw [show process order diffs = _ from hp]
    · unfold rxCall
      rw [show process order diffs = _ from hp]
      exact storeGet_storeSet_self store key _
  · intro hp
    unfold rxCall
    rw [hp]

/-- Witness for C4 at the concrete capture `[100] ++ 5 × [10,100]`
    (5 frames of modal length 2). -/
theorem capture_five_frame_boundary_witness :
    (∀ x ∈ (segFrames [100,10,100,10,100,10,100,10,100,10,100]).map List.length,
      x ∈ [2]) ∧
    ((maxCount ((segFrames [100,10,100,10,100,10,100,10,100,10,100]).map List.length) = 4 →
      process [2] [100,10,100,10,100,10,100,10,100,10,100] = none ∧
      rxCall [] [2] "on" [100,10,100,10,100,10,100,10,100,10,100] = []) ∧
    (maxCount ((segFrames [100,10,100,10,100,10,100,10,100,10,100]).map List.length) = 5 →
      ∃ code, process [2] [100,10,100,10,100,10,100,10,100,10,100] = some code ∧
        rxCall [] [2] "on" [100,10,100,10,100,10,100,10,100,10,100] = storeSet [] "on" code ∧
        storeGet (rxCall [] [2] "on" [100,10,100,10,100,10,100,10,100,10,100]) "on"
          = some code) ∧
    (process [2] [100,10,100,10,100,10,100,10,100,10,100] = none →
      rxCall [] [2] "on" [100,10,100,10,100,10,100,10,100,10,100] = [])) := by
  have hcov : ∀ x ∈ (segFrames [100,10,100,10,100,10,100,10,100,10,100]).map List.length,
      x ∈ [2] := by
    have e5 : segFrames [100,10,100,10,100,10,100,10,100,10,100]
        = [[10,100],[10,100],[10,100],[10,100],[10,100]] := by
      unfold segFrames
      rw [gapThreshold_eq]
      decide
    rw [e5]
    decide
  exact ⟨hcov,
    capture_five_frame_boundary [] [2] "on" [100,10,100,10,100,10,100,10,100,10,100] hcov⟩

/-- Claim C5 (amended).  For any frame list with at least 5 members and any
    admissible iteration order of its length set: the chosen length always
    achieves the modal multiplicity (so it is a most frequent length), the
    retained frames are exactly those of the chosen length with their count
    equal to that multiplicity, and retained + discarded = total (the
    discard count being the difference that the code reports).  Which of
    several tied modal lengths is chosen depends on the hash-based set
    iteration order, not on frame order (see the counterexample). -/
theorem modal_filter_correct (order : List ℕ) (res : List (List ℕ))
    (h5 : 5 ≤ res.length)
    (hcov : ∀ x ∈ res.map List.length, x ∈ order) :
    (res.map List.length).count (chooseLength order (res.map List.length))
        = maxCount (res.map List.length) ∧
    (∀ x ∈ res.map List.length,
      (res.map List.length).count x
        ≤ (res.map List.length).count (chooseLength order (res.map List.length))) ∧
    (res.filter (fun r => r.length == chooseLength order (res.map List.length))).length
        = (res.map List.length).count (chooseLength order (res.map List.length)) ∧
    (res.filter (fun r => r.length == chooseLength order (res.map List.length))).length
      + (res.filter (fun r => !(r.length == chooseLength order (res.map List.length)))).length
        = res.length := by
  have hne : res.map List.length ≠ [] := by
    intro hc
    have := congrArg List.length hc
    rw [List.length_map, List.length_nil] at this
    omega
  have hcc := chooseLength_count order (res.map List.length) hne hcov
  refine ⟨hcc, ?_, (count_map_length res _).symm, ?_⟩
  · intro x hx
    rw [hcc]
    exact count_le_maxCount (res.map List.length) x hx
  · have := length_filter_partition
      (fun r => r.length == chooseLength order (res.map List.length)) res
    omega


/-- Witness for C5 at five length-1 frames with order `[1]`. -/
theorem modal_filter_correct_witness :
    5 ≤ ([[1],[1],[1],[1],[1]] : List (List ℕ)).length ∧
    (∀ x ∈ ([[1],[1],[1],[1],[1]] : List (List ℕ)).map List.length, x ∈ [1]) ∧
    ((([[1],[1],[1],[1],[1]] : List (List ℕ)).map List.length).count
        (chooseLength [1] (([[1],[1],[1],[1],[1]] : List (List ℕ)).map List.length))
      = maxCount (([[1],[1],[1],[1],[1]] : List (List ℕ)).map List.length) ∧
    (∀ x ∈ ([[1],[1],[1],[1],[1]] : List (List ℕ)).map List.length,
      (([[1],[1],[1],[1],[1]] : List (List ℕ)).map List.length).count x
        ≤ (([[1],[1],[1],[1],[1]] : List (List ℕ)).map List.length).count
            (chooseLength [1] (([[1],[1],[1],[1],[1]] : List (List ℕ)).map List.length))) ∧
    (([[1],[1],[1],[1],[1]] : List (List ℕ)).filter
        (fun r => r.length == chooseLength [1]
          (([[1],[1],[1],[1],[1]] : List (List ℕ)).map List.length))).length
      = (([[1],[1],[1],[1],[1]] : List (List ℕ)).map List.length).count
          (chooseLength [1] (([[1],[1],[1],[1],[1]] : List (List ℕ)).map List.length)) ∧
    (([[1],[1],[1],[1],[1]] : List (List ℕ)).filter
        (fun r => r.length == chooseLength [1]
          (([[1],[1],[1],[1],[1]] : List (List ℕ)).map List.length))).length
      + (([[1],[1],[1],[1],[1]] : List (List ℕ)).filter
          (fun r => !(r.length == chooseLength [1]
            (([[1],[1],[1],[1],[1]] : List (List ℕ)).map List.length)))).length
      = ([[1],[1],[1],[1],[1]] : List (List ℕ)).length) :=
  ⟨by decide, by decide,
    modal_filter_correct [1] [[1],[1],[1],[1],[1]] (by decide) (by decide)⟩

/-- Counterexample to the C5 tie-break as stated: with frames of lengths
    `[2,2,2,2,2,3,3,3,3,3]` (a tie) and the admissible set iteration order
    `[3, 2]`, the filter chooses length 3, not the first-encountered modal
    length 2, and `process` succeeds returning a length-3 code. -/
theorem modal_tiebreak_counterexample :
    (∀ x ∈ (segFrames [100,
        10,100, 10,100, 10,100, 10,100, 10,100,
        10,10,100, 10,10,100, 10,10,100, 10,10,100, 10,10,100]).map List.length,
      x ∈ [3, 2]) ∧
    (∀ x ∈ [3, 2], x ∈ (segFrames [100,
        10,100, 10,100, 10,100, 10,100, 10,100,
        10,10,100, 10,10,100, 10,10,100, 10,10,100, 10,10,100]).map List.length) ∧
    specFirstModal ((segFrames [100,
        10,100, 10,100, 10,100, 10,100, 10,100,
        10,10,100, 10,10,100, 10,10,100, 10,10,100, 10,10,100]).map List.length) = 2 ∧
    chooseLength [3, 2] ((segFrames [100,
        10,100, 10,100, 10,100, 10,100, 10,100,
        10,10,100, 10,10,100, 10,10,100, 10,10,100, 10,10,100]).map List.length) = 3 ∧
    process [3, 2] [100,
        10,100, 10,100, 10,100, 10,100, 10,100,
        10,10,100, 10,10,100, 10,10,100, 10,10,100, 10,10,100]
      = some [10, 10, 100] := by
  have e : segFrames [100,
        10,100, 10,100, 10,100, 10,100, 10,100,
        10,10,100, 10,10,100, 10,10,100, 10,10,100, 10,10,100]
      = [[10,100],[10,100],[10,100],[10,100],[10,100],
         [10,10,100],[10,10,100],[10,10,100],[10,10,100],[10,10,100]] := by
    unfold segFrames
    rw [gapThreshold_eq]
    decide
  have hp : process [3, 2] [100,
        10,100, 10,100, 10,100, 10,100, 10,100,
        10,10,100, 10,10,100, 10,10,100, 10,10,100, 10,10,100]
      = some [10, 10, 100] := by
    rw [process_eq_nat]
    decide
  refine ⟨?_, ?_, ?_, ?_, hp⟩ <;> rw [e] <;> decide


/-! Section: Averaging and the quality metric (claim C2) -/

lemma foldl_min_len (rs : List (List ℕ)) :
    ∀ a, (∀ x ∈ rs, a ≤ x.length) → rs.foldl (fun a x => min a x.length) a = a := by
  induction rs with
  | nil =>
    intro a _
    rfl
  | cons x t ih =>
    intro a h
    show t.foldl (fun a x => min a x.length) (min a x.length) = a
    rw [min_eq_left (h x (List.mem_cons_self x t))]
    exact ih a (fun y hy => h y (List.mem_cons_of_mem x hy))

lemma minLen_all_eq (res : List (List ℕ)) (L : ℕ) (h : res ≠ [])
    (hL : ∀ r ∈ res, r.length = L) : minLen res = L := by
  cases res with
  | nil => exact absurd rfl h
  | cons r rs =>
    show rs.foldl (fun a x => min a x.length) r.length = L
    rw [hL r (List.mem_cons_self r rs)]
    exact foldl_min_len rs L (fun y hy => le_of_eq (hL y (List.mem_cons_of_mem r hy)).symm)

lemma columns_length (res : List (List ℕ)) : (columns res).length = minLen res := by
  unfold columns
  rw [List.length_map, List.length_range]

lemma columns_getElem (res : List (List ℕ)) (i : ℕ) (h : i < (columns res).length) :
    (columns res)[i] = res.map (fun r => r.getD i 0) := by
  unfold columns at h ⊢
  simp only [List.getElem_map, List.getElem_range]

lemma averageFrames_length (res : List (List ℕ)) (L : ℕ) (h : res ≠ [])
    (hL : ∀ r ∈ res, r.length = L) : (averageFrames res).length = L := by
  unfold averageFrames
  rw [List.length_map, columns_length, minLen_all_eq res L h hL]

lemma averageFrames_getElem (res : List (List ℕ)) (i : ℕ)
    (h : i < (averageFrames res).length) :
    (averageFrames res)[i]
      = pyRound ((((res.map (fun r => r.getD i 0)).sum : ℕ) : ℚ) / (res.length : ℚ)) := by
  unfold averageFrames at h ⊢
  rw [List.getElem_map]
  rw [columns_getElem res i (by rw [List.length_map] at h; exact h)]

lemma zip_self_map {α β γ : Type} (l : List α) (g : α → β) (F : α × β → γ) :
    ((l.zip (l.map g)).map F) = l.map (fun a => F (a, g a)) := by
  induction l with
  | nil => rfl
  | cons a t ih =>
    simp only [List.map_cons, List.zip_cons_cons, ih]

/-- The `s` list written as one map over the columns, with each column
    paired with its own rounded mean. -/
lemma stdList_eq (res : List (List ℕ)) :
    stdList res = (columns res).map (fun col =>
      Real.sqrt ((col.map (fun (y : ℕ) =>
        ((y:ℝ) - ((pyRound (((col.sum : ℕ) : ℚ) / (res.length : ℚ))):ℝ)) ^ 2)).sum)) := by
  unfold stdList averageFrames
  rw [zip_self_map]

lemma stdList_length (res : List (List ℕ)) : (stdList res).length = (columns res).length := by
  rw [stdList_eq, List.length_map]

/-- Counterexample for C2: for the five retained frames
    `[[0],[0],[0],[0],[5]]` the reported score is `√20` (sum of squared
    deviations, not normalised), while the mean population standard
    deviation the spec describes is `√(20/5) = 2`. -/
theorem quality_not_population_std :
    quality [[0],[0],[0],[0],[5]] ≠ specQuality [[0],[0],[0],[0],[5]] := by
  have hcol : columns [[0],[0],[0],[0],[5]] = [[0,0,0,0,5]] := by decide
  have havg : averageFrames [[0],[0],[0],[0],[5]] = [1] := by
    rw [averageFrames_eq_nat _ (by decide)]
    decide
  have hstd : stdList [[0],[0],[0],[0],[5]] = [Real.sqrt 20] := by
    unfold stdList
    rw [hcol, havg]
    norm_num
  have hq : quality [[0],[0],[0],[0],[5]] = Real.sqrt 20 := by
    unfold quality
    rw [hstd]
    norm_num
  have hs : specQuality [[0],[0],[0],[0],[5]] = 2 := by
    unfold specQuality
    rw [hcol]
    have h4 : Real.sqrt 4 = 2 := by
      rw [show (4:ℝ) = 2^2 by norm_num, Real.sqrt_sq (by norm_num)]
    norm_num
    rw [← Real.sqrt_div (by norm_num : (0:ℝ) ≤ 20), show (20:ℝ)/5 = 4 by norm_num]
    exact h4
  rw [hq, hs]
  intro hc
  have h20 : (20:ℝ) = 2 ^ 2 := by
    rw [← hc, Real.sq_sqrt (by norm_num)]
  norm_num at h20


/-- Rounded mean of a constant column of length `n` is the constant. -/
lemma const_col_round (n v : ℕ) (hn : n ≠ 0) (col : List ℕ) (hlen : col.length = n)
    (hall : ∀ x ∈ col, x = v) :
    pyRound (((col.sum : ℕ) : ℚ) / (n : ℚ)) = (v : ℤ) := by
  have hsum : col.sum = n * v := by
    rw [List.sum_eq_card_nsmul col v hall, hlen, smul_eq_mul]
  have hq : (((n * v : ℕ) : ℚ)) / (n:ℚ) = ((v:ℕ):ℚ) := by
    have hn' : (n:ℚ) ≠ 0 := Nat.cast_ne_zero.mpr hn
    push_cast
    field_simp
  rw [hsum, hq, pyRound_natCast]

/-- Claim C2 (amended).  With at least 5 retained frames, all of length `L`:
    `AveragedCode` has length `L` and position `i` holds the rounded
    arithmetic mean of position `i` across frames; the reported score is
    the mean over positions of `√(Σ (y − mᵢ)²)` — the root of the *sum* of
    squared deviations about the *rounded* mean, i.e. `√cnt` times a
    population-standard-deviation-like quantity, not the population
    standard deviation itself; and if all retained frames are identical the
    score is exactly 0 and `AveragedCode` equals any one frame. -/
theorem averaging_rounded_mean_and_quality (res : List (List ℕ)) (L : ℕ)
    (h5 : 5 ≤ res.length) (hL : ∀ r ∈ res, r.length = L) :
    (averageFrames res).length = L ∧
    (∀ i, i < L → (averageFrames res).getD i 0
        = pyRound ((((res.map (fun r => r.getD i 0)).sum : ℕ) : ℚ) / (res.length : ℚ))) ∧
    (quality res
        = ((columns res).map (fun col =>
            Real.sqrt ((col.map (fun (y : ℕ) =>
              ((y:ℝ) - ((pyRound (((col.sum : ℕ) : ℚ) / (res.length : ℚ))):ℝ)) ^ 2)).sum))).sum
          / (L : ℝ)) ∧
    ((∀ r ∈ res, r = res.headD []) →
      quality res = 0 ∧ averageFrames res = (res.headD []).map (fun (y : ℕ) => (y:ℤ))) := by
  have hne : res ≠ [] := by
    intro hc
    rw [hc] at h5
    simp at h5
  have hlen : (averageFrames res).length = L := averageFrames_length res L hne hL
  have hcl : (columns res).length = L := by
    rw [columns_length, minLen_all_eq res L hne hL]
  have hnz : res.length ≠ 0 := fun hc => hne (List.length_eq_zero.mp hc)
  refine ⟨hlen, ?_, ?_, ?_⟩
  · intro i hi
    have hi' : i < (averageFrames res).length := by omega
    rw [List.getD_eq_getElem _ _ hi', averageFrames_getElem res i hi']
  · unfold quality
    rw [stdList_eq, List.length_map, hcl]
  · intro hall
    have hhead : res.headD [] ∈ res := by
      cases res with
      | nil => exact absurd rfl hne
      | cons a t => exact List.mem_cons_self a t
    have hhL : (res.headD []).length = L := hL _ hhead
    have hcol_const : ∀ i, ∀ x ∈ res.map (fun r => r.getD i 0),
        x = (res.headD []).getD i 0 := by
      intro i x hx
      rw [List.mem_map] at hx
      obtain ⟨y, hy, rfl⟩ := hx
      rw [hall y hy]
    have hround : ∀ i, pyRound ((((res.map (fun r => r.getD i 0)).sum : ℕ) : ℚ)
        / (res.length : ℚ)) = (((res.headD []).getD i 0 : ℕ) : ℤ) := by
      intro i
      exact const_col_round res.length ((res.headD []).getD i 0) hnz
        (res.map (fun r => r.getD i 0)) (List.length_map res _) (hcol_const i)
    constructor
    · unfold quality
      have hz : (stdList res).sum = 0 := by
        apply List.sum_eq_zero
        intro x hx
        rw [stdList_eq, List.mem_map] at hx
        obtain ⟨col, hcol, rfl⟩ := hx
        unfold columns at hcol
        rw [List.mem_map] at hcol
        obtain ⟨i, -, rfl⟩ := hcol
        rw [hround i]
        have hzero : ((res.map (fun r => r.getD i 0)).map (fun (y : ℕ) =>
            ((y:ℝ) - ((((res.headD []).getD i 0 : ℕ) : ℤ):ℝ)) ^ 2)).sum = 0 := by
          apply List.sum_eq_zero
          intro z hz
          rw [List.mem_map] at hz
          obtain ⟨y, hy, rfl⟩ := hz
          rw [hcol_const i y hy]
          push_cast
          ring
        rw [hzero, Real.sqrt_zero]
      rw [hz, zero_div]
    · apply List.ext_getElem
      · rw [hlen, List.length_map, hhL]
      · intro i h1 h2
        rw [averageFrames_getElem res i h1, List.getElem_map]
        have hiL : i < (res.headD []).length := by
          rw [List.length_map] at h2
          exact h2
        have := hround i
        rw [List.getD_eq_getElem _ _ hiL] at this
        exact this

/-- Witness for C2 at five identical frames `[7, 8]`. -/
theorem averaging_rounded_mean_and_quality_witness :
    5 ≤ ([[7,8],[7,8],[7,8],[7,8],[7,8]] : List (List ℕ)).length ∧
    (∀ r ∈ ([[7,8],[7,8],[7,8],[7,8],[7,8]] : List (List ℕ)), r.length = 2) ∧
    ((averageFrames [[7,8],[7,8],[7,8],[7,8],[7,8]]).length = 2 ∧
    (∀ i, i < 2 → (averageFrames [[7,8],[7,8],[7,8],[7,8],[7,8]]).getD i 0
        = pyRound (((((([[7,8],[7,8],[7,8],[7,8],[7,8]] : List (List ℕ))).map
            (fun r => r.getD i 0)).sum : ℕ) : ℚ)
          / (([[7,8],[7,8],[7,8],[7,8],[7,8]] : List (List ℕ)).length : ℚ))) ∧
    (quality [[7,8],[7,8],[7,8],[7,8],[7,8]]
        = ((columns [[7,8],[7,8],[7,8],[7,8],[7,8]]).map (fun col =>
            Real.sqrt ((col.map (fun (y : ℕ) =>
              ((y:ℝ) - ((pyRound (((col.sum : ℕ) : ℚ)
                / (([[7,8],[7,8],[7,8],[7,8],[7,8]] : List (List ℕ)).length : ℚ))):ℝ)) ^ 2)).sum))).sum
          / ((2 : ℕ) : ℝ)) ∧
    ((∀ r ∈ ([[7,8],[7,8],[7,8],[7,8],[7,8]] : List (List ℕ)),
        r = ([[7,8],[7,8],[7,8],[7,8],[7,8]] : List (List ℕ)).headD []) →
      quality [[7,8],[7,8],[7,8],[7,8],[7,8]] = 0 ∧
      averageFrames [[7,8],[7,8],[7,8],[7,8],[7,8]]
        = (([[7,8],[7,8],[7,8],[7,8],[7,8]] : List (List ℕ)).headD []).map
            (fun (y : ℕ) => (y:ℤ)))) :=
  ⟨by decide, by decide,
    averaging_rounded_mean_and_quality [[7,8],[7,8],[7,8],[7,8],[7,8]] 2
      (by decide) (by decide)⟩


/-! Section: The timer callback (claim C3) -/

/-- Claim C3 (confirmed).  One firing of the playback timer callback performs
    exactly one transition: on the sentinel the pin goes to the idle level,
    the timer stays disarmed and the pointer stays put; otherwise the pin is
    driven to `aptr & 1 ^ active_high`, the timer is re-armed for exactly
    the duration at the current index, and the pointer advances by one. -/
theorem timer_callback_step (s : TXTimerState) (h : s.aptr < s.arr.length) :
    (s.arr.getD s.aptr 0 = STOP →
      txCb s = { s with timer := none, pin := idleLevel s.activeHigh }) ∧
    (s.arr.getD s.aptr 0 ≠ STOP →
      txCb s = { s with timer := some (s.arr.getD s.aptr 0),
                        pin := (s.aptr &&& 1) ^^^ activeInt s.activeHigh,
                        aptr := s.aptr + 1 }) := by
  constructor
  · intro hv
    unfold txCb
    rw [if_pos hv]
  · intro hv
    unfold txCb
    rw [if_neg hv]

/-- Witness for C3 at `arr = [5, 0]`, `aptr = 0`, active-high. -/
theorem timer_callback_step_witness :
    (⟨[5, 0], 0, 0, true, some 1⟩ : TXTimerState).aptr
        < (⟨[5, 0], 0, 0, true, some 1⟩ : TXTimerState).arr.length ∧
    (((⟨[5, 0], 0, 0, true, some 1⟩ : TXTimerState).arr.getD 0 0 = STOP →
      txCb ⟨[5, 0], 0, 0, true, some 1⟩
        = { (⟨[5, 0], 0, 0, true, some 1⟩ : TXTimerState) with
            timer := none, pin := idleLevel true }) ∧
    ((⟨[5, 0], 0, 0, true, some 1⟩ : TXTimerState).arr.getD 0 0 ≠ STOP →
      txCb ⟨[5, 0], 0, 0, true, some 1⟩
        = { (⟨[5, 0], 0, 0, true, some 1⟩ : TXTimerState) with
            timer := some ((⟨[5, 0], 0, 0, true, some 1⟩ : TXTimerState).arr.getD 0 0),
            pin := (0 &&& 1) ^^^ activeInt true,
            aptr := 0 + 1 })) :=
  ⟨by decide, timer_callback_step ⟨[5, 0], 0, 0, true, some 1⟩ (by decide)⟩

/-! Section: Latency (claim C7) -/

/-- Claim C7 (confirmed).  `latency()` returns
    `(reps + 2) * max(total on-time over all codes) / 1000` (integer
    division, milliseconds), computed once at load; a nonblocking transmit
    of any key leaves it unchanged; and for codes with on-time sums 5000 µs
    and 8000 µs at `reps = 5` it returns 56. -/
theorem latency_once_at_load (data : List (String × List ℕ)) (reps : ℕ) :
    latency (txInit data reps)
      = (reps + 2) * maxList (data.map (fun kv => kv.2.sum)) / 1000 ∧
    (∀ key s', txCall (txInit data reps) key = some s' →
      latency s' = latency (txInit data reps)) ∧
    latency (txInit [("a", [5000]), ("b", [8000])] 5) = 56 := by
  refine ⟨?_, ?_, by decide⟩
  · show txLatency (data.map Prod.snd) reps = _
    unfold txLatency
    rw [List.map_map]
    rfl
  · intro key s' h
    unfold txCall at h
    cases hg : storeGet (txInit data reps).data key with
    | none =>
      rw [hg] at h
      exact absurd h (by simp)
    | some lst =>
      rw [hg] at h
      simp only [Option.map_some', Option.some.injEq] at h
      rw [← h]
      rfl

/-! Section: Blocking transmit (claim C10) -/

lemma toggleRun_length (p : ℕ) (lst : List ℕ) :
    (toggleRun p lst).1.length = lst.length := by
  induction lst generalizing p with
  | nil => rfl
  | cons t ts ih =>
    show ((p ^^^ 1) :: (toggleRun (p ^^^ 1) ts).1).length = ts.length + 1
    rw [List.length_cons, ih (p ^^^ 1)]

/-- The repetition loop writes `reps` identical blocks, each starting with
    the forced inactive level; the blocks do not depend on the incoming pin
    state because each starts with `pin(q)`. -/
lemma sendReps_blocks (q : ℕ) (lst : List ℕ) :
    ∀ (reps : ℕ) (p : ℕ),
      (sendReps q p reps lst).1
        = (List.replicate reps (q :: (toggleRun q lst).1)).flatten := by
  intro reps
  induction reps with
  | zero =>
    intro p
    rfl
  | succ r ih =>
    intro p
    show q :: ((toggleRun q lst).1 ++ (sendReps q (toggleRun q lst).2 r lst).1) = _
    rw [List.replicate_succ, List.flatten_cons, ih (toggleRun q lst).2, List.cons_append]

/-- Claim C10 (confirmed).  The blocking transmit's pin-write trace ends with
    the inactive level (`active_high ^ 1`), and consists of `reps` blocks,
    each of which first forces the pin to the inactive level and then
    performs one toggle per duration of the code. -/
theorem send_forces_idle (ah : Bool) (p0 reps : ℕ) (lst : List ℕ) :
    (sendWrites ah p0 reps lst).getLast? = some (idleLevel ah) ∧
    ∃ blocks : List (List ℕ),
      sendWrites ah p0 reps lst = blocks.flatten ++ [idleLevel ah] ∧
      blocks.length = reps ∧
      ∀ b ∈ blocks, b = idleLevel ah :: (toggleRun (idleLevel ah) lst).1 ∧
        b.length = lst.length + 1 := by
  refine ⟨?_, List.replicate reps (idleLevel ah :: (toggleRun (idleLevel ah) lst).1),
    ?_, List.length_replicate _ _, ?_⟩
  · unfold sendWrites
    exact List.getLast?_concat _
  · unfold sendWrites
    rw [sendReps_blocks (idleLevel ah) lst reps p0]
  · intro b hb
    have hb' := List.eq_of_mem_replicate hb
    exact ⟨hb', by rw [hb', List.length_cons, toggleRun_length]⟩

/-! Section: Key deletion (claim C9) -/

lemma storeGet_eq_none_of_not_mem {α : Type} (st : List (String × α)) (k : String)
    (h : k ∉ st.map Prod.fst) : storeGet st k = none := by
  induction st with
  | nil => rfl
  | cons kv t ih =>
    have hk : kv.1 ≠ k := by
      intro hc
      exact h (by rw [← hc]; exact List.mem_map_of_mem Prod.fst (List.mem_cons_self kv t))
    unfold storeGet
    rw [List.find?_cons_of_neg _ (by simpa using hk)]
    exact ih (fun hc => h (List.mem_cons_of_mem _ hc))

lemma storeDel_keys {α : Type} (st : List (String × α)) (k : String) :
    (storeDel st k).map Prod.fst = (st.map Prod.fst).erase k := by
  induction st with
  | nil => rfl
  | cons kv t ih =>
    by_cases hk : kv.1 = k
    · unfold storeDel
      rw [List.eraseP_cons_of_pos (by simpa using hk), List.map_cons, hk,
        List.erase_cons_head]
    · unfold storeDel
      rw [List.eraseP_cons_of_neg (by simpa using hk), List.map_cons, List.map_cons,
        List.erase_cons_tail (by simpa using hk),
        show List.eraseP (fun kv => kv.1 == k) t = storeDel t k from rfl, ih]


lemma storeGet_storeDel_ne {α : Type} (st : List (String × α)) (k k' : String)
    (h : k' ≠ k) : storeGet (storeDel st k) k' = storeGet st k' := by
  induction st with
  | nil => rfl
  | cons kv t ih =>
    by_cases hk : kv.1 = k
    · unfold storeDel
      rw [List.eraseP_cons_of_pos (by simpa using hk)]
      unfold storeGet
      rw [List.find?_cons_of_neg _ (by simp [hk]; exact fun hc => h hc.symm)]
    · unfold storeDel
      rw [List.eraseP_cons_of_neg (by simpa using hk)]
      by_cases hk' : kv.1 = k'
      · unfold storeGet
        rw [List.find?_cons_of_pos _ (by simpa using hk'),
          List.find?_cons_of_pos _ (by simpa using hk')]
      · unfold storeGet
        rw [List.find?_cons_of_neg _ (by simpa using hk'),
          List.find?_cons_of_neg _ (by simpa using hk')]
        exact ih

/-- Claim C9 (confirmed).  Deleting a stored key removes exactly that key from
    the `keys()` enumeration, subsequent inspection finds nothing and
    nonblocking playback of it fails with the unknown-key error, while every
    other entry is unchanged. -/
theorem delete_key_spec (st : List (String × List ℕ)) (k : String)
    (hnd : (st.map Prod.fst).Nodup) (hmem : k ∈ st.map Prod.fst) :
    k ∉ (storeDel st k).map Prod.fst ∧
    (storeDel st k).map Prod.fst = (st.map Prod.fst).erase k ∧
    storeGet (storeDel st k) k = none ∧
    (∀ k', k' ≠ k → storeGet (storeDel st k) k' = storeGet st k') ∧
    (∀ reps lat arr aptr,
      txCall ⟨storeDel st k, reps, lat, arr, aptr⟩ k = none) := by
  have hkeys := storeDel_keys st k
  have hnot : k ∉ (storeDel st k).map Prod.fst := by
    rw [hkeys]
    exact hnd.not_mem_erase
  have hnone : storeGet (storeDel st k) k = none :=
    storeGet_eq_none_of_not_mem _ k hnot
  refine ⟨hnot, hkeys, hnone, fun k' h => storeGet_storeDel_ne st k k' h, ?_⟩
  intro reps lat arr aptr
  unfold txCall
  rw [show (⟨storeDel st k, reps, lat, arr, aptr⟩ : TXState).data = storeDel st k
    from rfl, hnone]
  rfl

/-- Witness for C9 at the store `[("on", [1]), ("off", [2])]`, deleting
    `"on"`. -/
theorem delete_key_spec_witness :
    ((([("on", [1]), ("off", [2])] : List (String × List ℕ)).map Prod.fst).Nodup ∧
      "on" ∈ ([("on", [1]), ("off", [2])] : List (String × List ℕ)).map Prod.fst) ∧
    ("on" ∉ (storeDel [("on", [1]), ("off", [2])] "on").map Prod.fst ∧
    (storeDel [("on", [1]), ("off", [2])] "on").map Prod.fst
      = (([("on", [1]), ("off", [2])] : List (String × List ℕ)).map Prod.fst).erase "on" ∧
    storeGet (storeDel [("on", [1]), ("off", [2])] "on") "on" = none ∧
    (∀ k', k' ≠ "on" →
      storeGet (storeDel [("on", [1]), ("off", [2])] "on") k'
        = storeGet [("on", [1]), ("off", [2])] k') ∧
    (∀ reps lat arr aptr,
      txCall ⟨storeDel [("on", [1]), ("off", [2])] "on", reps, lat, arr, aptr⟩ "on"
        = none)) :=
  ⟨⟨by decide, by decide⟩,
    delete_key_spec [("on", [1]), ("off", [2])] "on" (by decide) (by decide)⟩


/-! Section: Playback buffer and callback chain (claim C6) -/

lemma writeSeq_length (ts : List ℕ) : ∀ (arr : List ℕ) (x : ℕ),
    (writeSeq arr x ts).length = arr.length := by
  induction ts with
  | nil =>
    intro arr x
    rfl
  | cons t ts ih =>
    intro arr x
    show (writeSeq (arr.set x t) (x + 1) ts).length = _
    rw [ih, List.length_set]

/-- The write loop splices `ts` into the buffer at offset `x`. -/
lemma writeSeq_spec (ts : List ℕ) : ∀ (arr : List ℕ) (x : ℕ),
    x + ts.length ≤ arr.length →
    writeSeq arr x ts = arr.take x ++ ts ++ arr.drop (x + ts.length) := by
  induction ts with
  | nil =>
    intro arr x h
    show arr = arr.take x ++ [] ++ arr.drop (x + 0)
    rw [List.append_nil, Nat.add_zero, List.take_append_drop]
  | cons t ts ih =>
    intro arr x h
    rw [List.length_cons] at h
    have hx : x < arr.length := by omega
    have hA : (arr.take x).length = x := by
      rw [List.length_take]
      omega
    show writeSeq (arr.set x t) (x + 1) ts = _
    rw [ih (arr.set x t) (x + 1) (by rw [List.length_set]; omega)]
    rw [List.set_eq_take_cons_drop t hx]
    have h1 : (arr.take x ++ t :: arr.drop (x + 1)).take (x + 1) = arr.take x ++ [t] := by
      rw [show x + 1 = (arr.take x).length + 1 from by rw [hA]]
      rw [List.take_append]
      rfl
    have h2 : (arr.take x ++ t :: arr.drop (x + 1)).drop (x + 1 + ts.length)
        = arr.drop (x + (t :: ts).length) := by
      rw [show x + 1 + ts.length = (arr.take x).length + (ts.length + 1) from by
        rw [hA]; ring]
      rw [List.drop_append, List.drop_succ_cons, List.drop_drop]
      congr 1
      rw [List.length_cons]
      ring
    rw [h1, h2]
    simp [List.append_assoc]

lemma flatten_replicate_length (reps : ℕ) (lst : List ℕ) :
    (List.flatten (List.replicate reps lst)).length = reps * lst.length := by
  rw [List.length_flatten, List.map_replicate, List.sum_replicate, smul_eq_mul]

/-- Source: `TX.__call__`'s buffer fill: the occupied prefix is the code repeated
    `reps` times plus the sentinel; the tail of the buffer is untouched. -/
lemma txFill_eq (arr lst : List ℕ) (reps : ℕ) (h : reps * lst.length + 1 ≤ arr.length) :
    txFill arr lst reps
      = (List.replicate reps lst).flatten ++ STOP :: arr.drop (reps * lst.length + 1) := by
  unfold txFill
  have hflen := flatten_replicate_length reps lst
  rw [writeSeq_spec _ arr 0 (by omega)]
  rw [List.take_zero, List.nil_append, Nat.zero_add, hflen]
  have hlen : reps * lst.length
      < ((List.replicate reps lst).flatten ++ arr.drop (reps * lst.length)).length := by
    rw [List.length_append, hflen, List.length_drop]
    omega
  rw [List.set_eq_take_cons_drop STOP hlen]
  have h1 : ((List.replicate reps lst).flatten ++ arr.drop (reps * lst.length)).take
      (reps * lst.length) = (List.replicate reps lst).flatten := by
    conv_lhs => rw [show reps * lst.length
      = ((List.replicate reps lst).flatten).length + 0 from by rw [hflen]; omega]
    rw [List.take_append, List.take_zero, List.append_nil]
  have h2 : ((List.replicate reps lst).flatten ++ arr.drop (reps * lst.length)).drop
      (reps * lst.length + 1) = arr.drop (reps * lst.length + 1) := by
    conv_lhs => rw [show reps * lst.length + 1
      = ((List.replicate reps lst).flatten).length + 1 from by rw [hflen]]
    rw [List.drop_append, List.drop_drop]
  rw [h1, h2]

lemma txFill_length (arr lst : List ℕ) (reps : ℕ) :
    (txFill arr lst reps).length = arr.length := by
  unfold txFill
  rw [List.length_set, writeSeq_length]

lemma getLast?_drop (arr : List ℕ) : ∀ k, k < arr.length →
    (arr.drop k).getLast? = arr.getLast? := by
  induction arr with
  | nil =>
    intro k h
    simp at h
  | cons a t ih =>
    intro k h
    cases k with
    | zero => rfl
    | succ k =>
      rw [List.drop_succ_cons, ih k (by simpa using h)]
      have ht : t ≠ [] := by
        intro hc
        rw [hc] at h
        simp at h
      cases t with
      | nil => exact absurd rfl ht
      | cons b u => exact List.getLast?_cons_cons.symm

/-- Any chain of callback firings starting at or before a sentinel position
    never reads an index beyond that sentinel. -/
lemma runChain_le (fuel : ℕ) : ∀ (s : TXTimerState) (k : ℕ),
    s.arr.getD k 0 = STOP → s.aptr ≤ k → ∀ i ∈ runChain fuel s, i ≤ k := by
  induction fuel with
  | zero =>
    intro s k _ _ i hi
    exact absurd hi (List.not_mem_nil i)
  | succ fuel ih =>
    intro s k hk hpk i hi
    by_cases hv : s.arr.getD s.aptr 0 = STOP
    · have htm : (txCb s).timer = none := by
        unfold txCb
        rw [if_pos hv]
      have hrc : runChain (fuel + 1) s = [s.aptr] := by
        show s.aptr :: (match (txCb s).timer with
          | none => []
          | some _ => runChain fuel (txCb s)) = [s.aptr]
        rw [htm]
      rw [hrc] at hi
      rw [List.mem_singleton.mp hi]
      exact hpk
    · have htm : (txCb s).timer = some (s.arr.getD s.aptr 0) := by
        unfold txCb
        rw [if_neg hv]
      have hrc : runChain (fuel + 1) s = s.aptr :: runChain fuel (txCb s) := by
        show s.aptr :: (match (txCb s).timer with
          | none => []
          | some _ => runChain fuel (txCb s)) = _
        rw [htm]
      rw [hrc] at hi
      rcases List.mem_cons.mp hi with rfl | hi2
      · exact hpk
      · have harr : (txCb s).arr = s.arr := by
          unfold txCb
          rw [if_neg hv]
        exact ih (txCb s) k (by rw [harr]; exact hk)
          (by rw [show (txCb s).aptr = s.aptr + 1 from by unfold txCb; rw [if_neg hv]]
              have hne : s.aptr ≠ k := fun hc => hv (by rw [hc]; exact hk)
              omega) i hi2


/-- Claim C6 (confirmed).  A nonblocking transmit writes the code `reps`
    times followed by the sentinel into the pre-sized buffer (occupied
    prefix `code × reps ++ [0]`), preserves the buffer size, keeps the
    buffer's final element equal to the sentinel (given the invariant held
    before, as it does for the zero-initialised buffer), and the callback
    chain started at index 0 never reads an index beyond any sentinel
    position — in particular not beyond the first sentinel it encounters. -/
theorem playback_buffer_sentinel (arr lst : List ℕ) (reps : ℕ)
    (hsz : reps * lst.length + 1 ≤ arr.length) (hlast : arr.getLast? = some STOP) :
    (txFill arr lst reps).take (reps * lst.length + 1)
        = (List.replicate reps lst).flatten ++ [STOP] ∧
    (txFill arr lst reps).length = arr.length ∧
    (txFill arr lst reps).getLast? = some STOP ∧
    (∀ (fuel k pin : ℕ) (ah : Bool) (tm : Option ℕ),
      (txFill arr lst reps).getD k 0 = STOP →
      ∀ i ∈ runChain fuel ⟨txFill arr lst reps, 0, pin, ah, tm⟩, i ≤ k) := by
  have hflen := flatten_replicate_length reps lst
  refine ⟨?_, txFill_length arr lst reps, ?_, ?_⟩
  · rw [txFill_eq arr lst reps hsz]
    conv_lhs => rw [show reps * lst.length + 1
      = ((List.replicate reps lst).flatten).length + 1 from by rw [hflen]]
    rw [List.take_append]
    rfl
  · rw [txFill_eq arr lst reps hsz, List.getLast?_append]
    have hB : (STOP :: arr.drop (reps * lst.length + 1)).getLast? = some STOP := by
      by_cases hD : arr.drop (reps * lst.length + 1) = []
      · rw [hD]
        rfl
      · have hlt : reps * lst.length + 1 < arr.length := by
          rcases Nat.lt_or_ge (reps * lst.length + 1) arr.length with h' | h'
          · exact h'
          · exact absurd (List.drop_eq_nil_of_le h') hD
        cases hDc : arr.drop (reps * lst.length + 1) with
        | nil => exact absurd hDc hD
        | cons b u =>
          rw [List.getLast?_cons_cons, ← hDc, getLast?_drop arr _ hlt]
          exact hlast
    rw [hB]
    rfl
  · intro fuel k pin ah tm hk i hi
    exact runChain_le fuel ⟨txFill arr lst reps, 0, pin, ah, tm⟩ k hk (Nat.zero_le k) i hi

/-- Witness for C6: `AveragedCode = [100, 200, 300]`, `reps = 3`, buffer of
    size 10 — the occupied buffer is
    `[100,200,300,100,200,300,100,200,300,0]` as the spec's example says. -/
theorem playback_buffer_sentinel_witness :
    (3 * ([100, 200, 300] : List ℕ).length + 1 ≤ (List.replicate 10 0 : List ℕ).length ∧
     (List.replicate 10 0 : List ℕ).getLast? = some STOP ∧
     txFill (List.replicate 10 0) [100, 200, 300] 3
       = [100, 200, 300, 100, 200, 300, 100, 200, 300, 0]) ∧
    ((txFill (List.replicate 10 0) [100, 200, 300] 3).take
        (3 * ([100, 200, 300] : List ℕ).length + 1)
        = (List.replicate 3 ([100, 200, 300] : List ℕ)).flatten ++ [STOP] ∧
    (txFill (List.replicate 10 0) [100, 200, 300] 3).length
        = (List.replicate 10 0 : List ℕ).length ∧
    (txFill (List.replicate 10 0) [100, 200, 300] 3).getLast? = some STOP ∧
    (∀ (fuel k pin : ℕ) (ah : Bool) (tm : Option ℕ),
      (txFill (List.replicate 10 0) [100, 200, 300] 3).getD k 0 = STOP →
      ∀ i ∈ runChain fuel
          ⟨txFill (List.replicate 10 0) [100, 200, 300] 3, 0, pin, ah, tm⟩, i ≤ k)) :=
  ⟨⟨by decide, by decide, by decide⟩,
    playback_buffer_sentinel (List.replicate 10 0) [100, 200, 300] 3
      (by decide) (by decide)⟩


/-! Section: Persistence round-trip (claim C8) -/

lemma decodeCode_encode (v : List ℤ) :
    decodeCode (JVal.jarr (v.map JVal.jnum)) = some v := by
  show (v.map JVal.jnum).mapM (fun w => match w with
      | JVal.jnum n => some n
      | _ => none) = some v
  induction v with
  | nil => rfl
  | cons n t ih =>
    rw [List.map_cons, List.mapM_cons, ih]
    rfl

lemma decodeStore_encode (st : List (String × List ℤ)) :
    decodeStore (encodeStore st) = some st := by
  show (st.map (fun kv => (kv.1, JVal.jarr (kv.2.map JVal.jnum)))).mapM
      (fun kv => (decodeCode kv.2).map (fun c => (kv.1, c))) = some st
  induction st with
  | nil => rfl
  | cons kv t ih =>
    rw [List.map_cons, List.mapM_cons, ih]
    show (Option.map _ (decodeCode (JVal.jarr (kv.2.map JVal.jnum)))).bind _ = _
    rw [decodeCode_encode]
    rfl

lemma storeSet_append {α : Type} (acc : List (String × α)) (k : String) (v : α)
    (h : k ∉ acc.map Prod.fst) : storeSet acc k v = acc ++ [(k, v)] := by
  induction acc with
  | nil => rfl
  | cons kv t ih =>
    have hk : kv.1 ≠ k := by
      intro hc
      exact h (by rw [← hc]; exact List.mem_map_of_mem Prod.fst (List.mem_cons_self kv t))
    unfold storeSet
    rw [if_neg hk, ih (fun hc => h (List.mem_cons_of_mem _ hc)), List.cons_append]

lemma foldl_storeSet {α : Type} (d : List (String × α)) :
    ∀ acc : List (String × α), (∀ kv ∈ d, kv.1 ∉ acc.map Prod.fst) →
      (d.map Prod.fst).Nodup →
      d.foldl (fun a kv => storeSet a kv.1 kv.2) acc = acc ++ d := by
  induction d with
  | nil =>
    intro acc _ _
    exact (List.append_nil acc).symm
  | cons kv t ih =>
    intro acc hdisj hnd
    rw [List.map_cons, List.nodup_cons] at hnd
    show t.foldl (fun a kv => storeSet a kv.1 kv.2) (storeSet acc kv.1 kv.2) = _
    rw [storeSet_append acc kv.1 kv.2 (hdisj kv (List.mem_cons_self kv t))]
    have hstep : ∀ kv' ∈ t, kv'.1 ∉ (acc ++ [(kv.1, kv.2)]).map Prod.fst := by
      intro kv' hkv' hc
      rw [List.map_append, List.mem_append] at hc
      rcases hc with hc | hc
      · exact hdisj kv' (List.mem_cons_of_mem kv hkv') hc
      · have : kv'.1 = kv.1 := by simpa using hc
        exact hnd.1 (this ▸ List.mem_map_of_mem Prod.fst hkv')
    rw [ih (acc ++ [(kv.1, kv.2)]) hstep hnd.2, List.append_assoc]
    rfl

/-- Claim C8 (confirmed).  Saving an in-memory store (with distinct keys, a
    dict invariant) and loading the file into a fresh empty store reproduces
    the mapping exactly: the same association list, hence the same key set
    and the same ordered integer sequence for every key. -/
theorem save_load_roundtrip (st : List (String × List ℤ))
    (hnd : (st.map Prod.fst).Nodup) :
    decodeStore (encodeStore st) = some st ∧
    rxLoad [] (encodeStore st) = st ∧
    (∀ k, storeGet (rxLoad [] (encodeStore st)) k = storeGet st k) ∧
    (rxLoad [] (encodeStore st)).map Prod.fst = st.map Prod.fst := by
  have hdec := decodeStore_encode st
  have hload : rxLoad [] (encodeStore st) = st := by
    unfold rxLoad
    rw [hdec]
    show updateAll [] st = st
    unfold updateAll
    rw [foldl_storeSet st [] (by simp) hnd, List.nil_append]
  exact ⟨hdec, hload, fun k => by rw [hload], by rw [hload]⟩

/-- Witness for C8 at the store `[("on", [1, 2]), ("off", [3])]`. -/
theorem save_load_roundtrip_witness :
    (([("on", [1, 2]), ("off", [3])] : List (String × List ℤ)).map Prod.fst).Nodup ∧
    (decodeStore (encodeStore [("on", [1, 2]), ("off", [3])])
        = some [("on", [1, 2]), ("off", [3])] ∧
    rxLoad [] (encodeStore [("on", [1, 2]), ("off", [3])]) = [("on", [1, 2]), ("off", [3])] ∧
    (∀ k, storeGet (rxLoad [] (encodeStore [("on", [1, 2]), ("off", [3])])) k
        = storeGet [("on", [1, 2]), ("off", [3])] k) ∧
    (rxLoad [] (encodeStore [("on", [1, 2]), ("off", [3])])).map Prod.fst
        = ([("on", [1, 2]), ("off", [3])] : List (String × List ℤ)).map Prod.fst) :=
  ⟨by decide, save_load_roundtrip [("on", [1, 2]), ("off", [3])] (by decide)⟩

end MPRemote
